import Mathlib

/-!
Verification development for an 8x8 othello (reversi) engine.

The board keeps two 64-bit sets, `taken` (occupied squares) and `black`
(piece colour), indexed by `x + 8*y`.  We embed each bitset as a
`Finset (Fin 64)`; `std::bitset` access with an index outside `[0, 64)` is
undefined behaviour in the source, which we model as reading `false` /
writing nothing.  C++ `int` values are embedded as `Int`: no arithmetic in
the program can overflow 32 bits (scores are bounded by the sum of square
weights and the alpha/beta bounds only ever negate between
`INT_MIN + 1` and `INT_MAX`).
-/

inductive Side where
  | WHITE
  | BLACK
deriving DecidableEq, BEq, Repr

open Side

/-- The `side == BLACK ? WHITE : BLACK` ternary used throughout the source. -/
def Side.opposite : Side → Side
  | WHITE => BLACK
  | BLACK => WHITE

inductive Position where
  | CORNER
  | EDGE
  | NEXT_TO_CORNER
  | DIAGONAL_TO_CORNER
  | OTHER
deriving DecidableEq, BEq, Repr

open Position

/-- `Board` holds the two `std::bitset<64>` members `taken` and `black`. -/
structure Board where
  taken : Finset (Fin 64)
  black : Finset (Fin 64)
deriving DecidableEq

/-- Interpret an in-range `Int` bit index as a `Fin 64`. -/
def toFin (i : Int) (h : 0 ≤ i ∧ i < 64) : Fin 64 :=
  ⟨i.toNat, by omega⟩

/-- `bitset::operator[]`; out-of-range access is UB in C++, modelled as `false`. -/
def testBit (s : Finset (Fin 64)) (i : Int) : Bool :=
  if h : 0 ≤ i ∧ i < 64 then decide (toFin i h ∈ s) else false

/-- `bitset::set(i, v)`; out-of-range access is UB in C++, modelled as a no-op. -/
def setBit (s : Finset (Fin 64)) (i : Int) (v : Bool) : Finset (Fin 64) :=
  if h : 0 ≤ i ∧ i < 64 then
    (if v then insert (toFin i h) s else s.erase (toFin i h))
  else s

namespace Board

/-- `Board::Board()`: the standard opening — centre squares taken,
`(4,3)` and `(3,4)` black. -/
def init : Board :=
  { taken := setBit (setBit (setBit (setBit ∅ (3 + 8 * 3) true) (3 + 8 * 4) true)
      (4 + 8 * 3) true) (4 + 8 * 4) true,
    black := setBit (setBit ∅ (4 + 8 * 3) true) (3 + 8 * 4) true }

/-- `Board::copy()`: builds a fresh `Board()` and overwrites both bitsets. -/
def copy (b : Board) : Board :=
  { init with black := b.black, taken := b.taken }

/-- `Board::occupied(x, y)` = `taken[x + 8*y]`. -/
def occupied (b : Board) (x y : Int) : Bool :=
  testBit b.taken (x + 8 * y)

/-- `Board::get(side, x, y)` = `occupied(x,y) && (black[x+8y] == (side == BLACK))`. -/
def get (b : Board) (side : Side) (x y : Int) : Bool :=
  occupied b x y && (testBit b.black (x + 8 * y) == (side == BLACK))

/-- `Board::set(side, x, y)`: `taken.set(x+8y); black.set(x+8y, side == BLACK)`. -/
def set (b : Board) (side : Side) (x y : Int) : Board :=
  { taken := setBit b.taken (x + 8 * y) true,
    black := setBit b.black (x + 8 * y) (side == BLACK) }

/-- `Board::onBoard(x, y)`. -/
def onBoard (x y : Int) : Bool :=
  decide (0 ≤ x) && decide (x < 8) && decide (0 ≤ y) && decide (y < 8)

/-- The eight compass directions in the order the nested
`for (dx) for (dy)` loops visit them (skipping `(0,0)`). -/
def directions : List (Int × Int) :=
  [(-1, -1), (-1, 0), (-1, 1), (0, -1), (0, 1), (1, -1), (1, 0), (1, 1)]

/-- All 64 squares in the order the nested `for (i) for (j)` loops visit them. -/
def squares : List (Int × Int) :=
  (List.range 8).flatMap fun i => (List.range 8).map fun j => ((i : Int), (j : Int))

/-- The `do { x += dx; y += dy; } while (onBoard(x, y) && get(other, x, y));`
scan, started at the square after the first unconditional step: walks while the
current square holds an opposing piece and returns the first square that does
not.  The board never changes during a scan, so fuel `16` (more than the 8
steps any ray can stay on the board) makes the loop total. -/
def scanRun (b : Board) (other : Side) (dx dy : Int) : Nat → Int → Int → Int × Int
  | 0, x, y => (x, y)
  | f + 1, x, y =>
    if onBoard x y && get b other x y then scanRun b other dx dy f (x + dx) (y + dy)
    else (x, y)

/-- One direction of `Board::checkMove`: the first step must hit an opposing
piece, and the square after the run of opposing pieces must hold an own piece. -/
def checkDirection (b : Board) (side other : Side) (X Y dx dy : Int) : Bool :=
  let x := X + dx
  let y := Y + dy
  if onBoard x y && get b other x y then
    let p := scanRun b other dx dy 16 x y
    onBoard p.1 p.2 && get b side p.1 p.2
  else false

/-- `Board::checkMove` for a non-null move. -/
def checkMovePlace (b : Board) (side : Side) (X Y : Int) : Bool :=
  if occupied b X Y then false
  else
    let other := side.opposite
    directions.any fun d => checkDirection b side other X Y d.1 d.2

/-- `Board::hasMoves(side)`: exhaustively test all 64 squares. -/
def hasMoves (b : Board) (side : Side) : Bool :=
  squares.any fun p => checkMovePlace b side p.1 p.2

/-- `Board::checkMove(m, side)`; `none` is the `nullptr` pass. -/
def checkMove (b : Board) (m : Option (Int × Int)) (side : Side) : Bool :=
  match m with
  | none => !hasMoves b side
  | some (X, Y) => checkMovePlace b side X Y

/-- The `while (onBoard(x, y) && get(other, x, y)) { set(side, x, y); ... }`
flipping loop of `Board::doMove`. -/
def flipRun (side other : Side) (dx dy : Int) : Nat → Board → Int → Int → Board
  | 0, b, _, _ => b
  | f + 1, b, x, y =>
    if onBoard x y && get b other x y then
      flipRun side other dx dy f (set b side x y) (x + dx) (y + dy)
    else b

/-- One direction of `Board::doMove`: scan to the end of the opposing run;
if an own piece sits there, flip the whole run. -/
def doMoveDirection (side other : Side) (X Y : Int) (b : Board) (dx dy : Int) : Board :=
  let p := scanRun b other dx dy 16 (X + dx) (Y + dy)
  if onBoard p.1 p.2 && get b side p.1 p.2 then
    flipRun side other dx dy 16 b (X + dx) (Y + dy)
  else b

/-- `Board::doMove(m, side)`: a pass is a no-op, an illegal move is ignored,
otherwise flip every bracketed run in all eight directions and finally take
the target square. -/
def doMove (b : Board) (m : Option (Int × Int)) (side : Side) : Board :=
  match m with
  | none => b
  | some (X, Y) =>
    if !checkMove b (some (X, Y)) side then b
    else
      let other := side.opposite
      let b1 := directions.foldl (fun bb d => doMoveDirection side other X Y bb d.1 d.2) b
      set b1 side X Y

/-- `Board::countBlack()` = `black.count()`. -/
def countBlack (b : Board) : Int :=
  (b.black.card : Int)

/-- `Board::countWhite()` = `taken.count() - black.count()`. -/
def countWhite (b : Board) : Int :=
  (b.taken.card : Int) - (b.black.card : Int)

/-- `Board::count(side)`. -/
def count (b : Board) (side : Side) : Int :=
  match side with
  | BLACK => countBlack b
  | WHITE => countWhite b

/-- `Board::getSquarePosition(x, y)` with `BOARD_SIZE = 8`. -/
def getSquarePosition (x y : Int) : Position :=
  let isEdge := (x = 0) ∨ (x = 7) ∨ (y = 0) ∨ (y = 7)
  let isCorner :=
    (x = 0 ∧ y = 0) ∨ (x = 0 ∧ y = 7) ∨ (x = 7 ∧ y = 0) ∨ (x = 7 ∧ y = 7)
  let isDiagonalToCorner :=
    (x = 1 ∧ y = 1) ∨ (x = 1 ∧ y = 6) ∨ (x = 6 ∧ y = 1) ∨ (x = 6 ∧ y = 6)
  let isNextToCorner :=
    (x = 1 ∧ y = 0) ∨ (x = 0 ∧ y = 1) ∨ (x = 0 ∧ y = 6) ∨ (x = 1 ∧ y = 7) ∨
    (x = 6 ∧ y = 7) ∨ (x = 7 ∧ y = 6) ∨ (x = 6 ∧ y = 0) ∨ (x = 7 ∧ y = 1)
  if isCorner then CORNER
  else if isDiagonalToCorner then DIAGONAL_TO_CORNER
  else if isNextToCorner then NEXT_TO_CORNER
  else if isEdge then EDGE
  else OTHER

/-- The positional weight of a square class (`CORNER_WEIGHT` etc.). -/
def squareWeight : Position → Int
  | CORNER => 3
  | EDGE => 2
  | NEXT_TO_CORNER => -2
  | DIAGONAL_TO_CORNER => -3
  | OTHER => 1

/-- One square's contribution to the positional score: zero when empty,
the class weight when the piece belongs to `side`, its negation otherwise. -/
def squareScore (b : Board) (side : Side) (x y : Int) : Int :=
  if occupied b x y then
    if get b side x y then squareWeight (getSquarePosition x y)
    else -(squareWeight (getSquarePosition x y))
  else 0

/-- `Board::getScore(side, testingMinimax)`: the simple count difference in
testing mode, otherwise the sum of signed positional weights over all squares. -/
def getScore (b : Board) (side : Side) (testingMinimax : Bool) : Int :=
  if testingMinimax then
    match side with
    | BLACK => countBlack b - countWhite b
    | WHITE => countWhite b - countBlack b
  else
    (squares.map fun p => squareScore b side p.1 p.2).sum

/-- `Board::setBoard(data)`: reset both bitsets, then mark `'b'` squares
taken-and-black and `'w'` squares taken. -/
def setBoard (data : Nat → Char) : Board :=
  (List.range 64).foldl
    (fun b i =>
      let b1 :=
        if data i = 'b' then
          { taken := setBit b.taken (i : Int) true, black := setBit b.black (i : Int) true }
        else b
      if data i = 'w' then { b1 with taken := setBit b1.taken (i : Int) true } else b1)
    ⟨∅, ∅⟩

end Board

open Board

/-!
`Player::negamax` operates on the player object: `self` is the current value
of the member `this->board` and `rootSide` is the member `this->side`.  The
C++ body never reassigns `this->board`, but a recursive call could in
principle mutate it, so the embedding threads its value through the loop and
returns its final value as the second component — mutation-freedom is then a
theorem, not an assumption.  Note that the body faithfully reproduces the
source: the move-legality test and the duplication act on `this->board`
(`self`), while only the base case reads the `board` argument.
-/

/-- The `for (i) for (j)` loop body of `Player::negamax`, one list element per
square.  `recCall self board side alpha beta` is the depth-decremented
recursive call (returning its result and the final value of `this->board`);
`alpha` and `moveMade` are the loop-carried locals. -/
def negamaxLoop (recCall : Board → Board → Side → Int → Int → (Int × Option (Int × Int)) × Board)
    (playingSide : Side) (beta : Int) :
    List (Int × Int) → Board → Int → Option (Int × Int) → (Int × Option (Int × Int)) × Board
  | [], self, alpha, moveMade => ((alpha, moveMade), self)
  | (i, j) :: rest, self, alpha, moveMade =>
    if checkMove self (some (i, j)) playingSide then
      let childBoard := doMove (copy self) (some (i, j)) playingSide
      let r := recCall self childBoard playingSide.opposite (-beta) (-alpha)
      let boardScore := -r.1.1
      let alpha' := if boardScore > alpha then boardScore else alpha
      let moveMade' := if boardScore > alpha then some (i, j) else moveMade
      if boardScore > beta then ((beta, some (i, j)), r.2)
      else negamaxLoop recCall playingSide beta rest r.2 alpha' moveMade'
    else negamaxLoop recCall playingSide beta rest self alpha moveMade

/-- `Player::negamax(board, playingSide, depth, alpha, beta)` with
`self = this->board` and `rootSide = this->side`.  Base case (depth 0 or no
legal move for the side to move on the argument board): return
`board->getScore(this->side, true)` — the hardcoded `true` selects the
simple counting mode — and a null move.  Recursive case: run the square loop. -/
def negamax (rootSide : Side) :
    Nat → Board → Board → Side → Int → Int → (Int × Option (Int × Int)) × Board
  | 0, self, board, _, _, _ => ((getScore board rootSide true, none), self)
  | depth + 1, self, board, playingSide, alpha, beta =>
    if !hasMoves board playingSide then ((getScore board rootSide true, none), self)
    else
      negamaxLoop (fun s b ps a bt => negamax rootSide depth s b ps a bt)
        playingSide beta squares self alpha none

/-- `INT_MIN + 1` (the root alpha; `-INT_MIN` would overflow). -/
def INTMIN1 : Int := -2147483647

/-- `INT_MAX` (the root beta). -/
def INTMAX : Int := 2147483647

/-- `Player::doMove(opponentsMove, msLeft)` acting on the persistent board
`b` with the player's side `side`: absorb the opponent's move, search to
depth 7, commit the chosen move, return the new board and the move. -/
def playerDoMove (b : Board) (side : Side) (opponentsMove : Option (Int × Int)) :
    Board × Option (Int × Int) :=
  let b1 :=
    match opponentsMove with
    | some m => doMove b (some m) side.opposite
    | none => b
  let results := negamax side 7 b1 b1 side INTMIN1 INTMAX
  let nextMove := results.1.2
  let b2 :=
    match nextMove with
    | some m => doMove results.2 (some m) side
    | none => results.2
  (b2, nextMove)

/-- A sequence of `doMove` mutations applied to a board. -/
def applyOps (b : Board) (ops : List (Option (Int × Int) × Side)) : Board :=
  ops.foldl (fun bb op => doMove bb op.1 op.2) b

/-- The original board and the object obtained by mutating its `copy()`
with an arbitrary sequence of moves. -/
def mutateCopy (b : Board) (ops : List (Option (Int × Int) × Side)) : Board × Board :=
  (b, applyOps (copy b) ops)

/-- Board states reachable through the public operations: the constructor's
standard opening, `set`, `doMove`, `setBoard`, and `copy`. -/
inductive Reachable : Board → Prop where
  | init : Reachable Board.init
  | set_step {b : Board} (side : Side) (x y : Int) :
      Reachable b → Reachable (Board.set b side x y)
  | doMove_step {b : Board} (m : Option (Int × Int)) (side : Side) :
      Reachable b → Reachable (Board.doMove b m side)
  | setBoard_step (data : Nat → Char) : Reachable (Board.setBoard data)
  | copy_step {b : Board} : Reachable b → Reachable (Board.copy b)

/-- A board with only a WHITE piece at `(1,0)` and a BLACK piece at `(2,0)`:
BLACK's single legal move on it is `(0,0)`. -/
def boardTwo : Board :=
  Board.set (Board.set ⟨∅, ∅⟩ WHITE 1 0) BLACK 2 0

/-- A board whose only piece is a BLACK disc on the corner `(0,0)`. -/
def boardCorner : Board :=
  Board.set ⟨∅, ∅⟩ BLACK 0 0

/-! ### Helper lemmas about the bitset primitives and counts -/

lemma testBit_eq (s : Finset (Fin 64)) (i : Int) (hr : 0 ≤ i ∧ i < 64) :
    testBit s i = decide (toFin i hr ∈ s) := by
  unfold testBit
  rw [dif_pos hr]

lemma setBit_eq (s : Finset (Fin 64)) (i : Int) (v : Bool) (hr : 0 ≤ i ∧ i < 64) :
    setBit s i v = if v then insert (toFin i hr) s else s.erase (toFin i hr) := by
  unfold setBit
  rw [dif_pos hr]

lemma testBit_true_elim {s : Finset (Fin 64)} {i : Int} (h : testBit s i = true) :
    ∃ hr : 0 ≤ i ∧ i < 64, toFin i hr ∈ s := by
  unfold testBit at h
  split at h
  · exact ⟨‹_›, of_decide_eq_true h⟩
  · exact absurd h (by simp)

lemma count_add_eq_taken (b : Board) (side : Side) :
    count b side + count b side.opposite = (b.taken.card : Int) := by
  cases side <;> simp [count, Side.opposite, countBlack, countWhite]

/-! ### C4: pass or illegal move is a no-op -/

/-- C4: for every board, side, and move that is a pass (`none`) or an illegal
placement, `doMove` leaves the board — both bitsets, hence all counts and
queries — completely unchanged. -/
theorem doMove_illegal_noop (b : Board) (m : Option (Int × Int)) (side : Side)
    (h : m = none ∨ checkMove b m side = false) : doMove b m side = b := by
  match m with
  | none => rfl
  | some (X, Y) =>
    rcases h with h | h
    · exact absurd h (by simp)
    · simp [Board.doMove, h]

/-- Witness for C4 at a concrete illegal placement. -/
theorem doMove_illegal_noop_witness :
    checkMove Board.init (some (0, 0)) BLACK = false ∧
      doMove Board.init (some (0, 0)) BLACK = Board.init :=
  ⟨by decide, doMove_illegal_noop _ _ _ (Or.inr (by decide))⟩

/-! ### C7: `copy` is a full value copy -/

/-- C7: `copy` duplicates both bitsets into an independent value; mutating
the copy with any sequence of moves never changes the original object or its
piece counts. -/
theorem copy_mutation_frame (b : Board) (ops : List (Option (Int × Int) × Side))
    (side : Side) :
    (mutateCopy b ops).1 = b ∧ copy b = b ∧
      count (mutateCopy b ops).1 side = count b side :=
  ⟨rfl, rfl, rfl⟩

/-! ### C9: square classification -/

/-- C9 counterexample: the squares classified `DIAGONAL_TO_CORNER` are
exactly the four squares `(1,1), (1,6), (6,1), (6,6)` — not eight of them,
as the claim states. -/
theorem getSquarePosition_diagonal_four :
    (squares.filter fun p => getSquarePosition p.1 p.2 == DIAGONAL_TO_CORNER) =
        [(1, 1), (1, 6), (6, 1), (6, 6)] ∧
      (squares.filter fun p => getSquarePosition p.1 p.2 == DIAGONAL_TO_CORNER).length ≠ 8 := by
  decide

/-- C9 (amended): classification from coordinates alone with board size 8 —
the four extreme corners are `CORNER`; the four squares one step diagonally
inward from the corners are `DIAGONAL_TO_CORNER`; the eight squares
orthogonally adjacent to a corner along an edge are `NEXT_TO_CORNER`;
remaining boundary squares are `EDGE`; everything else is `OTHER`. -/
theorem getSquarePosition_classification :
    ∀ x y : Fin 8,
      (getSquarePosition (x.val : Int) (y.val : Int) = CORNER ↔
        (((x.val : Int) = 0 ∨ (x.val : Int) = 7) ∧ ((y.val : Int) = 0 ∨ (y.val : Int) = 7))) ∧
      (getSquarePosition (x.val : Int) (y.val : Int) = DIAGONAL_TO_CORNER ↔
        (((x.val : Int) = 1 ∨ (x.val : Int) = 6) ∧ ((y.val : Int) = 1 ∨ (y.val : Int) = 6))) ∧
      (getSquarePosition (x.val : Int) (y.val : Int) = NEXT_TO_CORNER ↔
        ((((x.val : Int) = 0 ∨ (x.val : Int) = 7) ∧ ((y.val : Int) = 1 ∨ (y.val : Int) = 6)) ∨
          ((((y.val : Int) = 0 ∨ (y.val : Int) = 7) ∧ ((x.val : Int) = 1 ∨ (x.val : Int) = 6))))) ∧
      (getSquarePosition (x.val : Int) (y.val : Int) = EDGE ↔
        (((x.val : Int) = 0 ∨ (x.val : Int) = 7 ∨ (y.val : Int) = 0 ∨ (y.val : Int) = 7) ∧
          ¬(((x.val : Int) = 0 ∨ (x.val : Int) = 7) ∧ ((y.val : Int) = 0 ∨ (y.val : Int) = 7)) ∧
          ¬((((x.val : Int) = 0 ∨ (x.val : Int) = 7) ∧ ((y.val : Int) = 1 ∨ (y.val : Int) = 6)) ∨
            (((y.val : Int) = 0 ∨ (y.val : Int) = 7) ∧ ((x.val : Int) = 1 ∨ (x.val : Int) = 6))))) ∧
      (getSquarePosition (x.val : Int) (y.val : Int) = OTHER ↔
        (¬((x.val : Int) = 0 ∨ (x.val : Int) = 7 ∨ (y.val : Int) = 0 ∨ (y.val : Int) = 7) ∧
          ¬(((x.val : Int) = 1 ∨ (x.val : Int) = 6) ∧ ((y.val : Int) = 1 ∨ (y.val : Int) = 6)))) := by
  decide

/-! ### C10: the evaluation is antisymmetric between the sides -/

lemma squareScore_white_neg (b : Board) (x y : Int) :
    squareScore b WHITE x y = -(squareScore b BLACK x y) := by
  unfold squareScore Board.get
  cases hocc : occupied b x y
  · simp
  · have h1 : (WHITE == BLACK) = false := rfl
    have h2 : (BLACK == BLACK) = true := rfl
    cases htb : testBit b.black (x + 8 * y) <;> simp [htb, h1, h2]

lemma sum_map_neg_of (l : List (Int × Int)) (f g : (Int × Int) → Int)
    (h : ∀ p, f p = -(g p)) : (l.map f).sum = -((l.map g).sum) := by
  induction l with
  | nil => simp
  | cons p rest ih => simp only [List.map_cons, List.sum_cons, h p, ih]; ring

/-- C10: for every board state and both evaluation modes,
`getScore(WHITE, mode) = -getScore(BLACK, mode)` — the evaluation is
zero-sum between the two players. -/
theorem getScore_antisymm (b : Board) (mode : Bool) :
    getScore b WHITE mode = -(getScore b BLACK mode) := by
  cases mode with
  | true => simp [getScore, countBlack, countWhite]
  | false =>
    simp only [getScore, Bool.false_eq_true, if_false]
    exact sum_map_neg_of _ _ _ fun p => squareScore_white_neg b p.1 p.2

/-! ### C2: the base case evaluates in simple counting mode, not positional -/

/-- C2 is a code bug: at depth 0 (base case), `negamax` returns
`board->getScore(this->side, true)` — the hardcoded `true` selects the
simple piece-count mode.  On a board whose only piece is a BLACK disc on the
corner `(0,0)` it returns score `1`, while the positional-mode evaluation
that the claim describes is `3`. -/
theorem negamax_base_simple_mode_bug :
    (negamax BLACK 0 Board.init boardCorner BLACK INTMIN1 INTMAX).1 = (1, none) ∧
      getScore boardCorner BLACK false = 3 ∧
      getScore boardCorner BLACK true = 1 := by
  decide

/-! ### C1: the recursive case reads `this->board`, not the board argument -/

set_option maxRecDepth 100000 in
/-- C1 is a code bug: the loop of `Player::negamax` checks legality on and
duplicates `this->board` (the player's member board), not the `board` it was
given as argument.  With the member board at the standard opening and the
argument board `boardTwo` (whose only legal BLACK move is `(0,0)`), the
search returns the move `(2,3)` — legal on the member board but illegal on
the board it was asked to search. -/
theorem negamax_member_board_bug :
    (negamax BLACK 1 Board.init boardTwo BLACK INTMIN1 INTMAX).1 = (-3, some (2, 3)) ∧
      checkMove boardTwo (some (2, 3)) BLACK = false ∧
      checkMove boardTwo (some (0, 0)) BLACK = true := by
  decide

/-! ### C8: the search never mutates the boards it is given -/

lemma negamaxLoop_self
    (recCall : Board → Board → Side → Int → Int → (Int × Option (Int × Int)) × Board)
    (hrec : ∀ s b ps a bt, (recCall s b ps a bt).2 = s) (ps : Side) (beta : Int) :
    ∀ (l : List (Int × Int)) (self : Board) (alpha : Int) (mv : Option (Int × Int)),
      (negamaxLoop recCall ps beta l self alpha mv).2 = self := by
  intro l
  induction l with
  | nil => intro self alpha mv; rfl
  | cons p rest ih =>
    intro self alpha mv
    obtain ⟨i, j⟩ := p
    cases hc : checkMove self (some (i, j)) ps with
    | false => simp only [negamaxLoop, hc, Bool.false_eq_true, if_false]; exact ih self alpha mv
    | true =>
      simp only [negamaxLoop, hc, if_true]
      split
      · exact hrec self _ _ _ _
      · exact (ih _ _ _).trans (hrec self _ _ _ _)

lemma negamax_self (root : Side) :
    ∀ (d : Nat) (self board : Board) (ps : Side) (a bt : Int),
      (negamax root d self board ps a bt).2 = self := by
  intro d
  induction d with
  | zero => intros; rfl
  | succ d ih =>
    intro self board ps a bt
    rw [negamax]
    split
    · rfl
    · exact negamaxLoop_self _ (fun s b p x y => ih s b p x y) ps bt squares self a none

/-- C8: `Player::negamax` never mutates the player's persistent board (its
final value, threaded through the recursion, equals its initial value for
every call), and `Player::doMove`'s net effect on the persistent board is
exactly the two top-level `Board::doMove` applications — absorbing the
opponent's move and committing the chosen one. -/
theorem negamax_frame :
    (∀ (root : Side) (d : Nat) (self board : Board) (ps : Side) (a bt : Int),
      (negamax root d self board ps a bt).2 = self) ∧
    (∀ (b : Board) (side : Side) (opp : Option (Int × Int)),
      (playerDoMove b side opp).1 =
        (match (negamax side 7 (doMove b opp side.opposite) (doMove b opp side.opposite)
            side INTMIN1 INTMAX).1.2 with
         | some m => doMove (doMove b opp side.opposite) (some m) side
         | none => doMove b opp side.opposite)) := by
  refine ⟨negamax_self, ?_⟩
  intro b side opp
  cases opp with
  | none =>
    simp only [playerDoMove]
    rw [negamax_self]
    rfl
  | some m =>
    simp only [playerDoMove]
    rw [negamax_self]

/-! ### C5: beta cutoff and first-move tie-break in the square loop -/

/-- C5: in the recursive case of the search, when the negated child score of
a legal move strictly exceeds `beta`, the square loop stops immediately —
the result for `(i,j) :: rest` is `(beta, that move)` for every `rest` — and
when the negated child score does not strictly exceed the running `alpha`
(and causes no cutoff), the loop continues with `alpha` and the recorded
best move unchanged, so the first move in scan order wins ties. -/
theorem negamax_cutoff_tiebreak :
    ∀ (root : Side) (d : Nat) (self : Board) (ps : Side) (i j : Int)
      (rest : List (Int × Int)) (alpha beta : Int) (mv : Option (Int × Int)),
    checkMove self (some (i, j)) ps = true →
    ((-(negamax root d self (doMove (copy self) (some (i, j)) ps) ps.opposite
          (-beta) (-alpha)).1.1 > beta →
      (negamaxLoop (fun s b p a bt => negamax root d s b p a bt) ps beta
          ((i, j) :: rest) self alpha mv).1 = (beta, some (i, j))) ∧
     (-(negamax root d self (doMove (copy self) (some (i, j)) ps) ps.opposite
          (-beta) (-alpha)).1.1 ≤ alpha →
      -(negamax root d self (doMove (copy self) (some (i, j)) ps) ps.opposite
          (-beta) (-alpha)).1.1 ≤ beta →
      negamaxLoop (fun s b p a bt => negamax root d s b p a bt) ps beta
          ((i, j) :: rest) self alpha mv =
        negamaxLoop (fun s b p a bt => negamax root d s b p a bt) ps beta
          rest self alpha mv)) := by
  intro root d self ps i j rest alpha beta mv hc
  constructor
  · intro hcut
    simp only [negamaxLoop, hc, if_true]
    rw [if_pos hcut]
  · intro h1 h2
    have hna : ¬(-(negamax root d self (doMove (copy self) (some (i, j)) ps) ps.opposite
        (-beta) (-alpha)).1.1 > alpha) := not_lt.mpr h1
    have hnb : ¬(-(negamax root d self (doMove (copy self) (some (i, j)) ps) ps.opposite
        (-beta) (-alpha)).1.1 > beta) := not_lt.mpr h2
    simp only [negamaxLoop, hc, if_true, if_neg hna, if_neg hnb]
    rw [negamax_self]

set_option maxRecDepth 100000 in
/-- Witness for C5: a concrete cutoff (the loop result is `(beta, (2,3))`
whatever squares remain) and a concrete tie (the recorded best move
`(7,7)` survives a move scoring below alpha). -/
theorem negamax_cutoff_tiebreak_witness :
    checkMove Board.init (some (2, 3)) BLACK = true ∧
      (negamaxLoop (fun s b p a bt => negamax BLACK 0 s b p a bt) BLACK (-100)
          [(2, 3), (0, 0)] Board.init (-1000) none).1 = (-100, some (2, 3)) ∧
      negamaxLoop (fun s b p a bt => negamax BLACK 0 s b p a bt) BLACK 100
          [(2, 3), (0, 0)] Board.init 5 (some (7, 7)) =
        negamaxLoop (fun s b p a bt => negamax BLACK 0 s b p a bt) BLACK 100
          [(0, 0)] Board.init 5 (some (7, 7)) :=
  ⟨by decide,
   (negamax_cutoff_tiebreak BLACK 0 Board.init BLACK 2 3 [(0, 0)] (-1000) (-100) none
     (by decide)).1 (by decide),
   (negamax_cutoff_tiebreak BLACK 0 Board.init BLACK 2 3 [(0, 0)] 5 100 (some (7, 7))
     (by decide)).2 (by decide) (by decide)⟩

/-! ### C6: `black` stays a subset of `taken` -/

lemma le_setBit_true (s : Finset (Fin 64)) (i : Int) : s ⊆ setBit s i true := by
  unfold setBit
  split
  · rw [if_pos rfl]
    exact Finset.subset_insert _ _
  · exact Finset.Subset.refl s

lemma setBit_true_mono {s t : Finset (Fin 64)} (h : s ⊆ t) (i : Int) :
    setBit s i true ⊆ setBit t i true := by
  unfold setBit
  split
  · rw [if_pos rfl, if_pos rfl]
    exact Finset.insert_subset_insert _ h
  · exact h

lemma setBit_false_subset (s : Finset (Fin 64)) (i : Int) : setBit s i false ⊆ s := by
  unfold setBit
  split
  · rw [if_neg (by simp)]
    exact Finset.erase_subset _ s
  · exact Finset.Subset.refl s

lemma inv_set (b : Board) (side : Side) (x y : Int) (h : b.black ⊆ b.taken) :
    (Board.set b side x y).black ⊆ (Board.set b side x y).taken := by
  cases side with
  | BLACK =>
    show setBit b.black (x + 8 * y) (BLACK == BLACK) ⊆ setBit b.taken (x + 8 * y) true
    rw [show (BLACK == BLACK) = true from rfl]
    exact setBit_true_mono h _
  | WHITE =>
    show setBit b.black (x + 8 * y) (WHITE == BLACK) ⊆ setBit b.taken (x + 8 * y) true
    rw [show (WHITE == BLACK) = false from rfl]
    exact ((setBit_false_subset _ _).trans h).trans (le_setBit_true _ _)

lemma inv_flipRun (side other : Side) (dx dy : Int) :
    ∀ (f : Nat) (b : Board) (x y : Int), b.black ⊆ b.taken →
      (flipRun side other dx dy f b x y).black ⊆ (flipRun side other dx dy f b x y).taken := by
  intro f
  induction f with
  | zero => intro b x y h; exact h
  | succ f ih =>
    intro b x y h
    rw [flipRun]
    split
    · exact ih _ _ _ (inv_set b side x y h)
    · exact h

lemma inv_doMoveDirection (side other : Side) (X Y : Int) (b : Board) (dx dy : Int)
    (h : b.black ⊆ b.taken) :
    (doMoveDirection side other X Y b dx dy).black ⊆ (doMoveDirection side other X Y b dx dy).taken := by
  simp only [doMoveDirection]
  split
  · exact inv_flipRun side other dx dy 16 b (X + dx) (Y + dy) h
  · exact h

lemma foldl_preserve {α : Type} (P : Board → Prop) (step : Board → α → Board)
    (hstep : ∀ b a, P b → P (step b a)) :
    ∀ (l : List α) (b : Board), P b → P (l.foldl step b) := by
  intro l
  induction l with
  | nil => intro b h; exact h
  | cons a rest ih => intro b h; exact ih _ (hstep b a h)

lemma inv_doMove (b : Board) (m : Option (Int × Int)) (side : Side)
    (h : b.black ⊆ b.taken) :
    (Board.doMove b m side).black ⊆ (Board.doMove b m side).taken := by
  match m with
  | none => exact h
  | some (X, Y) =>
    rw [Board.doMove]
    split
    · exact h
    · refine inv_set _ side X Y ?_
      exact foldl_preserve (fun bb => bb.black ⊆ bb.taken) _
        (fun bb d hbb => inv_doMoveDirection side side.opposite X Y bb d.1 d.2 hbb)
        directions b h

lemma inv_setBoard (data : Nat → Char) :
    (Board.setBoard data).black ⊆ (Board.setBoard data).taken := by
  refine foldl_preserve (fun bb => bb.black ⊆ bb.taken) _ ?_ (List.range 64) ⟨∅, ∅⟩
    (Finset.empty_subset _)
  intro b i h
  dsimp only
  split <;> split <;>
    first
      | exact (setBit_true_mono h _).trans (le_setBit_true _ _)
      | exact h.trans (le_setBit_true _ _)
      | exact setBit_true_mono h _
      | exact h

/-- C6: `isBlack ⊆ occupied` holds for the standard opening and is preserved
by `set`, `doMove`, `setBoard` and `copy`, hence for every reachable board. -/
theorem reachable_black_subset_taken (b : Board) (h : Reachable b) :
    b.black ⊆ b.taken := by
  induction h with
  | init => decide
  | set_step side x y _ ih => exact inv_set _ side x y ih
  | doMove_step m side _ ih => exact inv_doMove _ m side ih
  | setBoard_step data => exact inv_setBoard data
  | copy_step _ ih => exact ih

/-- Witness for C6 at the constructor's standard opening. -/
theorem reachable_black_subset_taken_witness :
    Reachable Board.init ∧ Board.init.black ⊆ Board.init.taken :=
  ⟨Reachable.init, reachable_black_subset_taken Board.init Reachable.init⟩


/-! ### C3: counting effects of a legal move -/

lemma and_true_right {a b : Bool} (h : (a && b) = true) : b = true := by
  rw [Bool.and_eq_true] at h
  exact h.2

lemma get_true_elim {b : Board} {side : Side} {x y : Int} (h : get b side x y = true) :
    ∃ hr : 0 ≤ x + 8 * y ∧ x + 8 * y < 64,
      toFin (x + 8 * y) hr ∈ b.taken ∧ testBit b.black (x + 8 * y) = (side == BLACK) := by
  unfold Board.get Board.occupied at h
  rw [Bool.and_eq_true] at h
  obtain ⟨h1, h2⟩ := h
  obtain ⟨hr, hmem⟩ := testBit_true_elim h1
  exact ⟨hr, hmem, eq_of_beq h2⟩

/-- Each flip of `doMove` fires on a square occupied by the opponent:
`taken` is unchanged, the mover gains a piece and the opponent loses one. -/
lemma count_set_flip (b : Board) (side : Side) (x y : Int)
    (hget : get b side.opposite x y = true) :
    (Board.set b side x y).taken = b.taken ∧
      count (Board.set b side x y) side = count b side + 1 ∧
      count (Board.set b side x y) side.opposite = count b side.opposite - 1 := by
  obtain ⟨hr, hmem, hblack⟩ := get_true_elim hget
  have htaken : (Board.set b side x y).taken = b.taken := by
    show setBit b.taken (x + 8 * y) true = b.taken
    rw [setBit_eq _ _ _ hr, if_pos rfl]
    exact Finset.insert_eq_self.mpr hmem
  cases side with
  | BLACK =>
    have hbf : testBit b.black (x + 8 * y) = false := by rw [hblack]; rfl
    have hnb : toFin (x + 8 * y) hr ∉ b.black := by
      intro hmem'
      rw [testBit_eq _ _ hr] at hbf
      simp [hmem'] at hbf
    have hbcard : (Board.set b BLACK x y).black.card = b.black.card + 1 := by
      show (setBit b.black (x + 8 * y) (BLACK == BLACK)).card = _
      rw [show (BLACK == BLACK) = true from rfl, setBit_eq _ _ _ hr, if_pos rfl,
        Finset.card_insert_of_not_mem hnb]
    have htc : (Board.set b BLACK x y).taken.card = b.taken.card := by rw [htaken]
    refine ⟨htaken, ?_, ?_⟩ <;>
      simp only [count, Side.opposite, countBlack, countWhite, hbcard, htc] <;>
        push_cast <;> ring
  | WHITE =>
    have hbt : testBit b.black (x + 8 * y) = true := by rw [hblack]; rfl
    have hmb : toFin (x + 8 * y) hr ∈ b.black := by
      rw [testBit_eq _ _ hr] at hbt
      exact of_decide_eq_true hbt
    have hpos : 1 ≤ b.black.card := Finset.card_pos.mpr ⟨_, hmb⟩
    have hbcard : (Board.set b WHITE x y).black.card = b.black.card - 1 := by
      show (setBit b.black (x + 8 * y) (WHITE == BLACK)).card = _
      rw [show (WHITE == BLACK) = false from rfl, setBit_eq _ _ _ hr, if_neg (by simp),
        Finset.card_erase_of_mem hmb]
    have htc : (Board.set b WHITE x y).taken.card = b.taken.card := by rw [htaken]
    refine ⟨htaken, ?_, ?_⟩ <;>
      simp only [count, Side.opposite, countBlack, countWhite, hbcard, htc] <;> omega

lemma flipRun_le (side : Side) (dx dy : Int) :
    ∀ (f : Nat) (b : Board) (x y : Int),
      (flipRun side side.opposite dx dy f b x y).taken = b.taken ∧
        count b side ≤ count (flipRun side side.opposite dx dy f b x y) side := by
  intro f
  induction f with
  | zero => intro b x y; exact ⟨rfl, le_refl _⟩
  | succ f ih =>
    intro b x y
    rw [flipRun]
    by_cases hcond : (onBoard x y && get b side.opposite x y) = true
    · rw [if_pos hcond]
      have hget : get b side.opposite x y = true := and_true_right hcond
      obtain ⟨ht, hcs, _⟩ := count_set_flip b side x y hget
      obtain ⟨iht, ihc⟩ := ih (Board.set b side x y) (x + dx) (y + dy)
      exact ⟨iht.trans ht, by omega⟩
    · rw [if_neg hcond]
      exact ⟨rfl, le_refl _⟩

lemma flipRun_strict (side : Side) (dx dy : Int) (f : Nat) (b : Board) (x y : Int)
    (hcond : (onBoard x y && get b side.opposite x y) = true) :
    count b side + 1 ≤ count (flipRun side side.opposite dx dy (f + 1) b x y) side := by
  have hget : get b side.opposite x y = true := and_true_right hcond
  obtain ⟨_, hcs, _⟩ := count_set_flip b side x y hget
  obtain ⟨_, ihc⟩ := flipRun_le side dx dy f (Board.set b side x y) (x + dx) (y + dy)
  rw [flipRun, if_pos hcond]
  omega

lemma doMoveDirection_le (side : Side) (X Y : Int) (b : Board) (dx dy : Int) :
    (doMoveDirection side side.opposite X Y b dx dy).taken = b.taken ∧
      count b side ≤ count (doMoveDirection side side.opposite X Y b dx dy) side := by
  simp only [doMoveDirection]
  split
  · exact flipRun_le side dx dy 16 b (X + dx) (Y + dy)
  · exact ⟨rfl, le_refl _⟩

lemma doMoveDirection_eq_of_not_check (side : Side) (X Y dx dy : Int) (b : Board)
    (h : checkDirection b side side.opposite X Y dx dy = false) :
    doMoveDirection side side.opposite X Y b dx dy = b := by
  simp only [checkDirection] at h
  simp only [doMoveDirection]
  by_cases hfirst : (onBoard (X + dx) (Y + dy) && get b side.opposite (X + dx) (Y + dy)) = true
  · rw [if_pos hfirst] at h
    rw [h]
    simp
  · have hscan : scanRun b side.opposite dx dy 16 (X + dx) (Y + dy) = (X + dx, Y + dy) := by
      rw [show (16 : Nat) = 15 + 1 from rfl, scanRun, if_neg hfirst]
    rw [hscan]
    split
    · rw [show (16 : Nat) = 15 + 1 from rfl, flipRun, if_neg hfirst]
    · rfl

lemma doMoveDirection_strict (side : Side) (X Y dx dy : Int) (b : Board)
    (h : checkDirection b side side.opposite X Y dx dy = true) :
    count b side + 1 ≤ count (doMoveDirection side side.opposite X Y b dx dy) side := by
  simp only [checkDirection] at h
  by_cases hfirst : (onBoard (X + dx) (Y + dy) && get b side.opposite (X + dx) (Y + dy)) = true
  · rw [if_pos hfirst] at h
    simp only [doMoveDirection]
    rw [h, if_pos rfl]
    exact flipRun_strict side dx dy 15 b (X + dx) (Y + dy) hfirst
  · rw [if_neg hfirst] at h
    exact absurd h (by simp)

lemma foldDirs_le (side : Side) (X Y : Int) :
    ∀ (l : List (Int × Int)) (b : Board),
      ((l.foldl (fun bb d => doMoveDirection side side.opposite X Y bb d.1 d.2) b).taken
          = b.taken) ∧
        count b side ≤
          count (l.foldl (fun bb d => doMoveDirection side side.opposite X Y bb d.1 d.2) b) side := by
  intro l
  induction l with
  | nil => intro b; exact ⟨rfl, le_refl _⟩
  | cons d0 rest ih =>
    intro b
    rw [List.foldl_cons]
    obtain ⟨ht0, hc0⟩ := doMoveDirection_le side X Y b d0.1 d0.2
    obtain ⟨ht1, hc1⟩ := ih (doMoveDirection side side.opposite X Y b d0.1 d0.2)
    exact ⟨ht1.trans ht0, le_trans hc0 hc1⟩

lemma foldDirs_strict (side : Side) (X Y : Int) :
    ∀ (l : List (Int × Int)) (b : Board),
      (∃ d ∈ l, checkDirection b side side.opposite X Y d.1 d.2 = true) →
      count b side + 1 ≤
        count (l.foldl (fun bb d => doMoveDirection side side.opposite X Y bb d.1 d.2) b) side := by
  intro l
  induction l with
  | nil =>
    rintro b ⟨d, hd, _⟩
    simp at hd
  | cons d0 rest ih =>
    rintro b ⟨d, hd, hcheck⟩
    rw [List.foldl_cons]
    by_cases hd0 : checkDirection b side side.opposite X Y d0.1 d0.2 = true
    · have hs := doMoveDirection_strict side X Y d0.1 d0.2 b hd0
      obtain ⟨_, hm⟩ := foldDirs_le side X Y rest (doMoveDirection side side.opposite X Y b d0.1 d0.2)
      omega
    · have hb : doMoveDirection side side.opposite X Y b d0.1 d0.2 = b :=
        doMoveDirection_eq_of_not_check side X Y d0.1 d0.2 b (eq_false_of_ne_true hd0)
      rw [hb]
      refine ih b ⟨d, ?_, hcheck⟩
      rcases List.mem_cons.mp hd with rfl | hd'
      · exact absurd hcheck hd0
      · exact hd'

lemma checkMovePlace_elim {b : Board} {side : Side} {X Y : Int}
    (h : checkMovePlace b side X Y = true) :
    occupied b X Y = false ∧
      ∃ d ∈ directions, checkDirection b side side.opposite X Y d.1 d.2 = true := by
  simp only [checkMovePlace] at h
  by_cases hocc : occupied b X Y = true
  · rw [if_pos hocc] at h
    exact absurd h (by simp)
  · rw [if_neg hocc] at h
    exact ⟨eq_false_of_ne_true hocc, List.any_eq_true.mp h⟩

/-- C3: a legal placement strictly increases the mover's piece count, never
increases the opponent's, and grows the occupied count by exactly one. -/
theorem doMove_count_changes (b : Board) (X Y : Int) (side : Side)
    (hx : onBoard X Y = true) (hleg : checkMove b (some (X, Y)) side = true) :
    count b side < count (doMove b (some (X, Y)) side) side ∧
      count (doMove b (some (X, Y)) side) side.opposite ≤ count b side.opposite ∧
      (doMove b (some (X, Y)) side).taken.card = b.taken.card + 1 := by
  obtain ⟨hocc, hex⟩ :=
    checkMovePlace_elim (show checkMovePlace b side X Y = true from hleg)
  have hrange : 0 ≤ X + 8 * Y ∧ X + 8 * Y < 64 := by
    simp only [Board.onBoard, Bool.and_eq_true, decide_eq_true_eq] at hx
    omega
  simp only [Board.doMove, hleg, Bool.not_true, Bool.false_eq_true, if_false]
  set b1 := directions.foldl (fun bb d => doMoveDirection side side.opposite X Y bb d.1 d.2) b
    with hb1
  set b2 := Board.set b1 side X Y with hb2
  obtain ⟨htk1, hc1⟩ := foldDirs_le side X Y directions b
  rw [← hb1] at htk1 hc1
  have hstrict := foldDirs_strict side X Y directions b hex
  rw [← hb1] at hstrict
  have hocc1 : testBit b1.taken (X + 8 * Y) = false := by
    rw [htk1]
    exact hocc
  have hnotmem : toFin (X + 8 * Y) hrange ∉ b1.taken := by
    rw [testBit_eq _ _ hrange] at hocc1
    simpa using hocc1
  have htc1 : b1.taken.card = b.taken.card := by rw [htk1]
  have htk2 : b2.taken.card = b1.taken.card + 1 := by
    rw [hb2]
    show (setBit b1.taken (X + 8 * Y) true).card = _
    rw [setBit_eq _ _ _ hrange, if_pos rfl, Finset.card_insert_of_not_mem hnotmem]
  have hsum_b := count_add_eq_taken b side
  have hsum_1 := count_add_eq_taken b1 side
  have hsum_2 := count_add_eq_taken b2 side
  cases side with
  | BLACK =>
    have h1b : count b1 BLACK = (b1.black.card : Int) := rfl
    have h2b : count b2 BLACK = (b2.black.card : Int) := rfl
    have hbl2a : b1.black.card ≤ b2.black.card := by
      rw [hb2]
      show _ ≤ (setBit b1.black (X + 8 * Y) (BLACK == BLACK)).card
      rw [show (BLACK == BLACK) = true from rfl, setBit_eq _ _ _ hrange, if_pos rfl]
      exact Finset.card_le_card (Finset.subset_insert _ _)
    refine ⟨?_, ?_, ?_⟩ <;> omega
  | WHITE =>
    have h1w : count b1 WHITE = (b1.taken.card : Int) - b1.black.card := rfl
    have h2w : count b2 WHITE = (b2.taken.card : Int) - b2.black.card := rfl
    have hbl2 : b2.black.card ≤ b1.black.card := by
      rw [hb2]
      show (setBit b1.black (X + 8 * Y) (WHITE == BLACK)).card ≤ _
      rw [show (WHITE == BLACK) = false from rfl, setBit_eq _ _ _ hrange, if_neg (by simp)]
      exact Finset.card_erase_le
    refine ⟨?_, ?_, ?_⟩ <;> omega

/-- Witness for C3: BLACK plays `(2,3)` on the standard opening (2 black,
2 white, 4 occupied → 4 black, 1 white, 5 occupied). -/
theorem doMove_count_changes_witness :
    (onBoard 2 3 = true ∧ checkMove Board.init (some (2, 3)) BLACK = true) ∧
      count Board.init BLACK < count (doMove Board.init (some (2, 3)) BLACK) BLACK ∧
      count (doMove Board.init (some (2, 3)) BLACK) BLACK.opposite ≤
        count Board.init BLACK.opposite ∧
      (doMove Board.init (some (2, 3)) BLACK).taken.card = Board.init.taken.card + 1 :=
  ⟨⟨by decide, by decide⟩, doMove_count_changes Board.init 2 3 BLACK (by decide) (by decide)⟩
